import Mathlib

/-
Verification of the diri-planner core data-model behaviour.

The definitions below are shallow embeddings of the relevant Python source:
  * `slugify`, `DbRecord`, `save`, `create`, `createMany` embed the slug
    assignment logic of `Base.save` in `src/core/models/base.py` together
    with Django's `slugify` text normalization (restricted to ASCII input).
  * `AppRow`, `applicationListView`, `applicationCRUDList` embed the ordering
    configuration of the three Application list views.
  * `TreeNode`, `ancestors`, `setParent` model the hierarchy-index contract
    (the tree maintenance itself lives in the external django-fast-treenode
    library, so it is modelled from the specification).
  * `save_model_value`, `get_boolean_value` embed `AttributeAdmin` in
    `src/core/admin/attribute_admin.py`.
  * `edit_view` embeds `ApplicationCRUD.edit_view` in
    `src/core/views/application_crud.py`, and `route` the URL wiring in
    `src/core/urls.py`.
-/

/-! ## Slug assignment (`src/core/models/base.py`, `Base.save`) -/

/-- ASCII whitespace matched by the regular-expression class `\s` used by
Django's `slugify` (space, tab, newline, carriage return, vertical tab,
form feed). -/
def isPySpace (c : Char) : Bool :=
  c = ' ' || c = '\t' || c = '\n' || c = '\r' || c = Char.ofNat 11 || c = Char.ofNat 12

/-- ASCII word character, the class `\w`: letters, digits, underscore. -/
def isWordChar (c : Char) : Bool :=
  c.isAlphanum || c = '_'

/-- Characters kept by the first substitution of Django's `slugify`,
which deletes everything outside the class `[\w\s-]`. -/
def keepChar (c : Char) : Bool :=
  isWordChar c || isPySpace c || c = '-'

/-- Characters collapsed by the second substitution of Django's `slugify`,
the class `[-\s]`. -/
def isDashOrSpace (c : Char) : Bool :=
  c = '-' || isPySpace c

/-- Replaces every maximal run of dash-or-whitespace characters by a single
dash; the boolean flag records whether the previous character belonged to
such a run. -/
def collapseRuns : Bool → List Char → List Char
  | _, [] => []
  | prev, c :: cs =>
    if isDashOrSpace c then
      if prev then collapseRuns true cs else '-' :: collapseRuns true cs
    else c :: collapseRuns false cs

/-- Strips leading and trailing dashes and underscores, the final
`.strip("-_")` of Django's `slugify`. -/
def stripEnds (l : List Char) : List Char :=
  ((l.dropWhile fun c => c = '-' || c = '_').reverse.dropWhile
    fun c => c = '-' || c = '_').reverse

/-- Django's `slugify` on ASCII input: lower-case, delete characters outside
`[\w\s-]`, collapse runs of `[-\s]` to a single dash, strip `-` and `_` from
both ends. -/
def slugify (s : String) : String :=
  String.mk (stripEnds (collapseRuns false ((s.data.map Char.toLower).filter keepChar)))

/-- Decimal digit character, as produced by Python's `str` on integers. -/
def digitChar (n : Nat) : Char := Char.ofNat (48 + n)

/-- Decimal digit expansion with structural fuel (so that it reduces inside
the kernel); the fuel never runs out when it is at least the number. -/
def natDigitsAux : Nat → Nat → List Char
  | 0, _ => []
  | fuel + 1, n =>
    if n = 0 then [] else natDigitsAux fuel (n / 10) ++ [digitChar (n % 10)]

/-- Decimal digit list of a natural number (empty for zero), mirroring
Python's decimal rendering of the collision counter. -/
def natDigits (n : Nat) : List Char := natDigitsAux n n

/-- Decimal string of a natural number, Python's `str(counter)`. -/
def natRepr (n : Nat) : String :=
  if n = 0 then "0" else String.mk (natDigits n)

/-- A persisted record as far as `Base.save` is concerned: the primary key,
the slug source field `name` (the default `SLUG_FIELD`), and the slug. -/
structure DbRecord where
  id : Nat
  name : String
  slug : String
deriving DecidableEq

/-- The uniqueness check of `Base.save`:
`model_class.objects.filter(slug=slug).exclude(id=self.id).exists()`. -/
def slugTaken (db : List DbRecord) (selfId : Nat) (s : String) : Bool :=
  db.any fun r => r.slug == s && r.id != selfId

/-- The candidate slug tried at loop iteration `k` of `Base.save`:
the base slug itself first, then `f"{base_slug}-{counter}"`. -/
def candidate (base : String) (k : Nat) : String :=
  if k = 0 then base else base ++ "-" ++ natRepr k

/-- The collision-resolution `while` loop of `Base.save`, expressed with
explicit fuel; it returns the index of the first candidate the uniqueness
check accepts (or the current index if the fuel runs out, which the
theorems below show never happens for fuel `db.length + 1`). -/
def slugSearch (db : List DbRecord) (selfId : Nat) (base : String) : Nat → Nat → Nat
  | 0, counter => counter
  | fuel + 1, counter =>
    if slugTaken db selfId (candidate base counter) then
      slugSearch db selfId base fuel (counter + 1)
    else counter

/-- `Base.save`: if the record has no slug and the slug source field is
non-empty, assign the first unused candidate derived from the slugified
source; otherwise leave the record unchanged (the database write performed
by `super().save()` is outside the modelled state). -/
def save (db : List DbRecord) (r : DbRecord) : DbRecord :=
  if r.slug = "" then
    if r.name = "" then r
    else
      { r with
        slug := candidate (slugify r.name)
          (slugSearch db r.id (slugify r.name) (db.length + 1) 0) }
  else r

/-- Creation of a record: run `save` against the current table contents and
append the saved record. -/
def create (db : List DbRecord) (r : DbRecord) : List DbRecord :=
  db ++ [save db r]

/-- Creates `n` records with identical name `nm`, no explicit slug and
pairwise distinct primary keys, as in the slug-uniqueness test scenario. -/
def createMany (nm : String) : Nat → List DbRecord
  | 0 => []
  | n + 1 => create (createMany nm n) { id := n, name := nm, slug := "" }

/-! ## Helper lemmas about decimal rendering and candidate slugs -/

/-- Decimal value of a digit list, used to invert `natDigits`. -/
def digitsVal (l : List Char) : Nat :=
  l.foldl (fun a c => 10 * a + (c.toNat - 48)) 0

theorem digitsVal_concat (l : List Char) (c : Char) :
    digitsVal (l ++ [c]) = 10 * digitsVal l + (c.toNat - 48) := by
  simp [digitsVal, List.foldl_append]

theorem digitChar_toNat : ∀ d < 10, (digitChar d).toNat = 48 + d := by decide

theorem natDigitsAux_fuel : ∀ n fuel fuel', n ≤ fuel → n ≤ fuel' →
    natDigitsAux fuel n = natDigitsAux fuel' n := by
  intro n
  induction n using Nat.strong_induction_on with
  | _ n ih =>
    intro fuel fuel' hf hf'
    rcases n with _ | m
    · rcases fuel with _ | f <;> rcases fuel' with _ | g <;> simp [natDigitsAux]
    · rcases fuel with _ | f
      · omega
      · rcases fuel' with _ | g
        · omega
        · rw [natDigitsAux, natDigitsAux, if_neg (Nat.succ_ne_zero m),
            if_neg (Nat.succ_ne_zero m)]
          have hdiv : (m + 1) / 10 < m + 1 := Nat.div_lt_self (Nat.succ_pos m) (by decide)
          rw [ih ((m + 1) / 10) hdiv f g (by omega) (by omega)]

theorem natDigits_eq (n : Nat) :
    natDigits n = if n = 0 then [] else natDigits (n / 10) ++ [digitChar (n % 10)] := by
  rcases n with _ | m
  · rfl
  · rw [if_neg (Nat.succ_ne_zero m)]
    show natDigitsAux (m + 1) (m + 1) = _
    rw [natDigitsAux, if_neg (Nat.succ_ne_zero m)]
    have hdiv : (m + 1) / 10 < m + 1 := Nat.div_lt_self (Nat.succ_pos m) (by decide)
    rw [natDigitsAux_fuel ((m + 1) / 10) m ((m + 1) / 10) (by omega) (Nat.le_refl _)]
    rfl

theorem digitsVal_natDigits : ∀ n, digitsVal (natDigits n) = n := by
  intro n
  induction n using Nat.strong_induction_on with
  | _ n ih =>
    match n with
    | 0 => simp [natDigits, natDigitsAux, digitsVal]
    | m + 1 =>
      rw [natDigits_eq, if_neg (Nat.succ_ne_zero m), digitsVal_concat,
        ih ((m + 1) / 10) (Nat.div_lt_self (Nat.succ_pos m) (by decide)),
        digitChar_toNat ((m + 1) % 10) (Nat.mod_lt _ (by decide))]
      omega

theorem natDigits_injective : Function.Injective natDigits := by
  intro m n h
  have hm := digitsVal_natDigits m
  rw [h, digitsVal_natDigits] at hm
  exact hm.symm

theorem natDigits_ne_nil (n : Nat) (h : n ≠ 0) : natDigits n ≠ [] := by
  match n with
  | 0 => exact absurd rfl h
  | m + 1 => rw [natDigits_eq, if_neg (Nat.succ_ne_zero m)]; simp

theorem natRepr_data (k : Nat) (h : k ≠ 0) : (natRepr k).data = natDigits k := by
  simp [natRepr, h]

theorem candidate_injective (base : String) : Function.Injective (candidate base) := by
  intro i j h
  unfold candidate at h
  by_cases hi : i = 0 <;> by_cases hj : j = 0
  · omega
  · rw [if_pos hi, if_neg hj] at h
    have hd := congrArg String.data h
    simp only [String.data_append, natRepr_data j hj] at hd
    have hlen := congrArg List.length hd
    simp only [List.length_append] at hlen
    have := natDigits_ne_nil j hj
    have : natDigits j ≠ [] := this
    have hpos : 0 < (natDigits j).length := List.length_pos.mpr this
    omega
  · rw [if_neg hi, if_pos hj] at h
    have hd := congrArg String.data h
    simp only [String.data_append, natRepr_data i hi] at hd
    have hlen := congrArg List.length hd
    simp only [List.length_append] at hlen
    have hpos : 0 < (natDigits i).length :=
      List.length_pos.mpr (natDigits_ne_nil i hi)
    omega
  · rw [if_neg hi, if_neg hj] at h
    have hd := congrArg String.data h
    simp only [String.data_append, natRepr_data i hi, natRepr_data j hj] at hd
    have h2 : natDigits i = natDigits j := by simpa using hd
    exact natDigits_injective h2

theorem candidate_ne_empty (base : String) (hb : base ≠ "") (k : Nat) :
    candidate base k ≠ "" := by
  unfold candidate
  by_cases hk : k = 0
  · rw [if_pos hk]; exact hb
  · rw [if_neg hk]
    intro h
    have hd := congrArg String.data h
    simp only [String.data_append] at hd
    have hlen := congrArg List.length hd
    simp only [List.length_append, List.length_cons, List.length_nil] at hlen
    omega

/-! ## Correctness of the collision-resolution loop -/

theorem slugTaken_mem {db : List DbRecord} {selfId : Nat} {s : String}
    (h : slugTaken db selfId s = true) : s ∈ db.map fun r => r.slug := by
  unfold slugTaken at h
  rcases List.any_eq_true.mp h with ⟨r, hr, hp⟩
  have hs : r.slug = s := by
    simp only [Bool.and_eq_true, beq_iff_eq] at hp
    exact hp.1
  exact hs ▸ List.mem_map_of_mem (fun r => r.slug) hr

/-- Pigeonhole: among the first `db.length + 1` candidate slugs at least one
passes the uniqueness check, because the candidates are pairwise distinct
and each failing candidate occurs as a slug of some row of `db`. -/
theorem existsFree (db : List DbRecord) (selfId : Nat) (base : String) :
    ∃ k, k ≤ db.length ∧ slugTaken db selfId (candidate base k) = false := by
  by_contra hcon
  push_neg at hcon
  have htaken : ∀ k ≤ db.length, slugTaken db selfId (candidate base k) = true := by
    intro k hk
    have := hcon k hk
    exact Bool.of_not_eq_false this
  have hnodup : ((List.range (db.length + 1)).map (candidate base)).Nodup :=
    (List.nodup_range _).map (candidate_injective base)
  have hsub : ((List.range (db.length + 1)).map (candidate base)) ⊆
      db.map fun r => r.slug := by
    intro s hs
    rcases List.mem_map.mp hs with ⟨k, hk, rfl⟩
    exact slugTaken_mem (htaken k (Nat.lt_succ_iff.mp (List.mem_range.mp hk)))
  have hle := (List.subperm_of_subset hnodup hsub).length_le
  simp [List.length_map, List.length_range] at hle

/-- The loop of `Base.save` returns the first free candidate index at or
after its starting counter, provided a free index exists within the fuel. -/
theorem slugSearch_correct (db : List DbRecord) (selfId : Nat) (base : String) :
    ∀ fuel start,
      (∃ k, start ≤ k ∧ k < start + fuel ∧
        slugTaken db selfId (candidate base k) = false) →
      slugTaken db selfId (candidate base (slugSearch db selfId base fuel start)) = false ∧
      start ≤ slugSearch db selfId base fuel start ∧
      ∀ j, start ≤ j → j < slugSearch db selfId base fuel start →
        slugTaken db selfId (candidate base j) = true := by
  intro fuel
  induction fuel with
  | zero =>
    intro start ⟨k, hk1, hk2, _⟩
    omega
  | succ fuel ih =>
    intro start hex
    rw [slugSearch]
    by_cases ht : slugTaken db selfId (candidate base start) = true
    · rw [if_pos ht]
      have hex2 : ∃ k, start + 1 ≤ k ∧ k < start + 1 + fuel ∧
          slugTaken db selfId (candidate base k) = false := by
        rcases hex with ⟨k, hk1, hk2, hk3⟩
        refine ⟨k, ?_, by omega, hk3⟩
        rcases Nat.eq_or_lt_of_le hk1 with heq | hlt
        · exact absurd (heq ▸ hk3) (by simp [ht])
        · omega
      rcases ih (start + 1) hex2 with ⟨h1, h2, h3⟩
      refine ⟨h1, by omega, ?_⟩
      intro j hj1 hj2
      rcases Nat.eq_or_lt_of_le hj1 with heq | hlt
      · exact heq ▸ ht
      · exact h3 j hlt hj2
    · rw [if_neg ht]
      exact ⟨Bool.of_not_eq_true ht, Nat.le_refl _, fun j hj1 hj2 => by omega⟩

/-- Two indices that are both first-free are equal. -/
theorem leastFree_unique {db : List DbRecord} {selfId : Nat} {base : String}
    {k k' : Nat}
    (hk : slugTaken db selfId (candidate base k) = false)
    (hkmin : ∀ j, j < k → slugTaken db selfId (candidate base j) = true)
    (hk' : slugTaken db selfId (candidate base k') = false)
    (hkmin' : ∀ j, j < k' → slugTaken db selfId (candidate base j) = true) :
    k = k' := by
  rcases Nat.lt_trichotomy k k' with h | h | h
  · exact absurd (hkmin' k h) (by simp [hk])
  · exact h
  · exact absurd (hkmin k' h) (by simp [hk'])

/-- The slug actually assigned by `save` on a slug-less record with non-empty
source field is the first free candidate. -/
theorem save_slug_eq (db : List DbRecord) (r : DbRecord)
    (h0 : r.slug = "") (h1 : r.name ≠ "") :
    (save db r).slug =
      candidate (slugify r.name) (slugSearch db r.id (slugify r.name) (db.length + 1) 0) ∧
    slugTaken db r.id ((save db r).slug) = false ∧
    ∀ j, j < slugSearch db r.id (slugify r.name) (db.length + 1) 0 →
      slugTaken db r.id (candidate (slugify r.name) j) = true := by
  have hex : ∃ k, 0 ≤ k ∧ k < 0 + (db.length + 1) ∧
      slugTaken db r.id (candidate (slugify r.name) k) = false := by
    rcases existsFree db r.id (slugify r.name) with ⟨k, hk1, hk2⟩
    exact ⟨k, Nat.zero_le _, by omega, hk2⟩
  rcases slugSearch_correct db r.id (slugify r.name) (db.length + 1) 0 hex with
    ⟨hfree, _, hmin⟩
  have hslug : (save db r).slug =
      candidate (slugify r.name) (slugSearch db r.id (slugify r.name) (db.length + 1) 0) := by
    unfold save
    rw [if_pos h0, if_neg h1]
  exact ⟨hslug, hslug ▸ hfree, fun j hj => hmin j (Nat.zero_le _) hj⟩

/-- After creating `N` records with the same non-empty name and fresh ids,
the table holds exactly the records with slugs `candidate base i` for
`i < N`. -/
theorem createMany_eq (nm : String) (h : nm ≠ "") :
    ∀ N, createMany nm N =
      (List.range N).map fun i =>
        { id := i, name := nm, slug := candidate (slugify nm) i } := by
  intro N
  induction N with
  | zero => rfl
  | succ N ih =>
    rw [createMany, create, ih]
    have hsave : save ((List.range N).map fun i =>
        ({ id := i, name := nm, slug := candidate (slugify nm) i } : DbRecord))
        { id := N, name := nm, slug := "" } =
        { id := N, name := nm, slug := candidate (slugify nm) N } := by
      have hlen : ((List.range N).map fun i =>
          ({ id := i, name := nm, slug := candidate (slugify nm) i } : DbRecord)).length
          = N := by simp
      have htaken : ∀ j, j < N →
          slugTaken ((List.range N).map fun i =>
            ({ id := i, name := nm, slug := candidate (slugify nm) i } : DbRecord)) N
            (candidate (slugify nm) j) = true := by
        intro j hj
        apply List.any_eq_true.mpr
        refine ⟨{ id := j, name := nm, slug := candidate (slugify nm) j },
          List.mem_map_of_mem _ (List.mem_range.mpr hj), ?_⟩
        simp only [Bool.and_eq_true, beq_self_eq_true, bne_iff_ne, ne_eq, true_and]
        omega
      have hfree : slugTaken ((List.range N).map fun i =>
          ({ id := i, name := nm, slug := candidate (slugify nm) i } : DbRecord)) N
          (candidate (slugify nm) N) = false := by
        apply Bool.of_not_eq_true
        intro hcon
        rcases List.any_eq_true.mp hcon with ⟨r, hr, hp⟩
        rcases List.mem_map.mp hr with ⟨i, hi, rfl⟩
        simp only [Bool.and_eq_true, beq_iff_eq] at hp
        have hiN := candidate_injective (slugify nm) hp.1
        have := List.mem_range.mp hi
        omega
      have hex : ∃ k, 0 ≤ k ∧ k < 0 + (((List.range N).map fun i =>
          ({ id := i, name := nm, slug := candidate (slugify nm) i } : DbRecord)).length + 1) ∧
          slugTaken ((List.range N).map fun i =>
            ({ id := i, name := nm, slug := candidate (slugify nm) i } : DbRecord)) N
            (candidate (slugify nm) k) = false :=
        ⟨N, Nat.zero_le _, by omega, hfree⟩
      rcases slugSearch_correct _ N (slugify nm) _ 0 hex with ⟨h1, _, h3⟩
      have hres : slugSearch ((List.range N).map fun i =>
          ({ id := i, name := nm, slug := candidate (slugify nm) i } : DbRecord)) N
          (slugify nm) (((List.range N).map fun i =>
            ({ id := i, name := nm, slug := candidate (slugify nm) i } : DbRecord)).length + 1)
          0 = N :=
        leastFree_unique h1 (fun j hj => h3 j (Nat.zero_le _) hj) hfree htaken
      rw [hlen] at hres
      unfold save
      rw [if_pos rfl, if_neg h]
      simp [hres]
    rw [hsave, List.range_succ, List.map_append]
    simp

/-- Claim C1: a record saved without an explicit slug and with a non-empty
source field gets the first unused candidate derived from the URL-safe
normalization of the source field (the base slug itself when free, else
`base-k` for the least free suffix `k`); and creating `N` records with
identical names yields the slugs `base, base-1, …, base-(N-1)`, all
pairwise distinct. -/
theorem slug_generation_first_unused :
    (∀ db r, r.slug = "" → r.name ≠ "" →
      ∃ k, (save db r).slug = candidate (slugify r.name) k ∧
        slugTaken db r.id (candidate (slugify r.name) k) = false ∧
        ∀ j, j < k → slugTaken db r.id (candidate (slugify r.name) j) = true) ∧
    (∀ nm N, nm ≠ "" →
      ((createMany nm N).map fun r => r.slug) =
        (List.range N).map (candidate (slugify nm)) ∧
      ((createMany nm N).map fun r => r.slug).Nodup) := by
  constructor
  · intro db r h0 h1
    rcases save_slug_eq db r h0 h1 with ⟨hs, hfree, hmin⟩
    exact ⟨_, hs, hs ▸ hfree, hmin⟩
  · intro nm N h
    have hc := createMany_eq nm h N
    constructor
    · rw [hc, List.map_map]
      rfl
    · rw [hc, List.map_map]
      have hcomp : ((fun r : DbRecord => r.slug) ∘ fun i =>
          ({ id := i, name := nm, slug := candidate (slugify nm) i } : DbRecord)) =
          candidate (slugify nm) := rfl
      rw [hcomp]
      exact (List.nodup_range N).map (candidate_injective (slugify nm))

/-- Witness for C1 at concrete inputs: three records named `"App A"` receive
the slugs `app-a`, `app-a-1`, `app-a-2`. -/
theorem slug_generation_first_unused_witness :
    ((createMany "App A" 3).map fun r => r.slug) = ["app-a", "app-a-1", "app-a-2"] ∧
    ((createMany "App A" 3).map fun r => r.slug).Nodup ∧
    (∃ k, (save [] { id := 0, name := "App A", slug := "" }).slug =
      candidate (slugify "App A") k) := by
  have h := slug_generation_first_unused
  have hB := h.2 "App A" 3 (by decide)
  refine ⟨?_, hB.2, ?_⟩
  · rw [hB.1]; decide
  · rcases h.1 [] { id := 0, name := "App A", slug := "" } rfl (by decide) with ⟨k, hk, _⟩
    exact ⟨k, hk⟩

/-- Claim C10: the collision-resolution loop of `Base.save` terminates on
every input: for every table state and non-empty base slug there is a least
candidate index whose slug is unused, and the loop (run with fuel
`db.length + 1`, which the pigeonhole argument shows is never exhausted)
returns exactly that index. -/
theorem slug_loop_terminates (db : List DbRecord) (selfId : Nat) (base : String)
    (_hb : base ≠ "") :
    ∃ k, slugTaken db selfId (candidate base k) = false ∧
      (∀ j, j < k → slugTaken db selfId (candidate base j) = true) ∧
      slugSearch db selfId base (db.length + 1) 0 = k := by
  have hex : ∃ k, 0 ≤ k ∧ k < 0 + (db.length + 1) ∧
      slugTaken db selfId (candidate base k) = false := by
    rcases existsFree db selfId base with ⟨k, hk1, hk2⟩
    exact ⟨k, Nat.zero_le _, by omega, hk2⟩
  rcases slugSearch_correct db selfId base (db.length + 1) 0 hex with ⟨h1, _, h3⟩
  exact ⟨_, h1, fun j hj => h3 j (Nat.zero_le _) hj, rfl⟩

/-- Witness for C10: with one existing row already holding the slug `app`,
the loop over that row's table returns a least free index. -/
theorem slug_loop_terminates_witness :
    ∃ k, slugTaken [{ id := 7, name := "App", slug := "app" }] 0 (candidate "app" k) = false ∧
      (∀ j, j < k → slugTaken [{ id := 7, name := "App", slug := "app" }] 0
        (candidate "app" j) = true) ∧
      slugSearch [{ id := 7, name := "App", slug := "app" }] 0 "app" 2 0 = k :=
  slug_loop_terminates [{ id := 7, name := "App", slug := "app" }] 0 "app" (by decide)

/-- Claim C4 (counterexample): the record named `"!"` has a non-empty source
field, yet saving it stores the empty slug, because the URL-safe
normalization of `"!"` is empty; this refutes the claim that a slug is
assigned in every case where the source field is non-empty. -/
theorem slug_assignment_counterexample :
    ({ id := 0, name := "!", slug := "" } : DbRecord).name ≠ "" ∧
    (save [] { id := 0, name := "!", slug := "" }).slug = "" := by
  exact ⟨by decide, by decide⟩

/-- Claim C4 (amended): saving a slug-less record assigns no slug when the
source field is empty, and assigns a non-empty slug whenever the URL-safe
normalization of the source field is non-empty; when the source field is
non-empty but its normalization is empty the stored slug can itself be
empty, as the counterexample shows. -/
theorem slug_assignment_empty_source (db : List DbRecord) (r : DbRecord) :
    (r.slug = "" → r.name = "" → (save db r).slug = "") ∧
    (r.slug = "" → r.name ≠ "" → slugify r.name ≠ "" → (save db r).slug ≠ "") := by
  constructor
  · intro h0 h1
    unfold save
    rw [if_pos h0, if_pos h1]
    exact h0
  · intro h0 h1 h2
    rcases save_slug_eq db r h0 h1 with ⟨hs, _, _⟩
    rw [hs]
    exact candidate_ne_empty _ h2 _

/-- Witness for C4 (amended): a record with empty name keeps an empty slug,
and the record named `App A` gets a non-empty slug. -/
theorem slug_assignment_empty_source_witness :
    (save [] { id := 0, name := "", slug := "" }).slug = "" ∧
    (save [] { id := 1, name := "App A", slug := "" }).slug ≠ "" :=
  ⟨(slug_assignment_empty_source [] { id := 0, name := "", slug := "" }).1 rfl rfl,
   (slug_assignment_empty_source [] { id := 1, name := "App A", slug := "" }).2 rfl
     (by decide) (by decide)⟩

/-- Removing from the uniqueness check a row whose id equals the id of the
record being saved does not change the check: `Base.save` excludes the
record itself via `.exclude(id=self.id)`. -/
theorem slugTaken_cons_self (db : List DbRecord) (e : DbRecord) (selfId : Nat)
    (h : e.id = selfId) (s : String) :
    slugTaken (e :: db) selfId s = slugTaken db selfId s := by
  unfold slugTaken
  rw [List.any_cons]
  have he : (e.slug == s && e.id != selfId) = false := by
    simp [h]
  rw [he, Bool.false_or]

/-- Claim C7: re-saving an already-slugged record leaves it unchanged, and
the uniqueness check excludes the record being saved, so saving against a
table that additionally contains a row with the record's own id gives the
same result as saving without that row — a record never collides with
itself. -/
theorem resave_idempotent_excludes_self :
    (∀ db r, r.slug ≠ "" → save db r = r) ∧
    (∀ db e r, e.id = r.id → save (e :: db) r = save db r) := by
  constructor
  · intro db r h
    unfold save
    rw [if_neg h]
  · intro db e r he
    by_cases h0 : r.slug = ""
    · by_cases h1 : r.name = ""
      · unfold save
        rw [if_pos h0, if_pos h0, if_pos h1, if_pos h1]
      · have hpred : ∀ s, slugTaken (e :: db) r.id s = slugTaken db r.id s :=
          slugTaken_cons_self db e r.id he
        have hexA : ∃ k, 0 ≤ k ∧ k < 0 + ((e :: db).length + 1) ∧
            slugTaken (e :: db) r.id (candidate (slugify r.name) k) = false := by
          rcases existsFree (e :: db) r.id (slugify r.name) with ⟨k, hk1, hk2⟩
          exact ⟨k, Nat.zero_le _, by omega, hk2⟩
        have hexB : ∃ k, 0 ≤ k ∧ k < 0 + (db.length + 1) ∧
            slugTaken db r.id (candidate (slugify r.name) k) = false := by
          rcases existsFree db r.id (slugify r.name) with ⟨k, hk1, hk2⟩
          exact ⟨k, Nat.zero_le _, by omega, hk2⟩
        rcases slugSearch_correct (e :: db) r.id (slugify r.name)
          ((e :: db).length + 1) 0 hexA with ⟨hA1, _, hA3⟩
        rcases slugSearch_correct db r.id (slugify r.name)
          (db.length + 1) 0 hexB with ⟨hB1, _, hB3⟩
        rw [hpred] at hA1
        have hA3b : ∀ j, j < slugSearch (e :: db) r.id (slugify r.name)
            ((e :: db).length + 1) 0 →
            slugTaken db r.id (candidate (slugify r.name) j) = true := by
          intro j hj
          rw [← hpred]
          exact hA3 j (Nat.zero_le _) hj
        have heq := leastFree_unique hA1 hA3b hB1 (fun j hj => hB3 j (Nat.zero_le _) hj)
        unfold save
        rw [if_pos h0, if_pos h0, if_neg h1, if_neg h1, heq]
    · unfold save
      rw [if_neg h0, if_neg h0]

/-- Witness for C7: a record that already carries the slug `app` is
unchanged by re-save, and adding a row with the same id to the table does
not change the saved slug. -/
theorem resave_idempotent_excludes_self_witness :
    save [] { id := 3, name := "App", slug := "app" } =
      { id := 3, name := "App", slug := "app" } ∧
    save [{ id := 5, name := "App", slug := "app" }] { id := 5, name := "App", slug := "" } =
      save [] { id := 5, name := "App", slug := "" } :=
  ⟨resave_idempotent_excludes_self.1 [] { id := 3, name := "App", slug := "app" } (by decide),
   resave_idempotent_excludes_self.2 [] { id := 5, name := "App", slug := "app" }
     { id := 5, name := "App", slug := "" } rfl⟩

/-! ## List-view ordering (`src/core/views/*.py`, `Application.Meta`) -/

/-- An Application row as far as list ordering is concerned: primary key,
`name`, and the materialized path `_path` maintained by the tree index
(held as its character list). -/
structure AppRow where
  id : Nat
  name : String
  path : List Char
deriving DecidableEq

/-- Lexicographic less-or-equal on character lists, the comparison a
database applies when ordering rows by a text column (ASCII collation). -/
def pathLeB : List Char → List Char → Bool
  | [], _ => true
  | _ :: _, [] => false
  | a :: as, b :: bs => if a < b then true else if b < a then false else pathLeB as bs

/-- Row order used by `ApplicationListView`, whose `ordering = ["name"]`
overrides the model default. -/
def rowNameLe (a b : AppRow) : Prop := pathLeB a.name.data b.name.data = true

/-- Row order of `Application.Meta.ordering = ["_path"]`, also used by
`ApplicationCRUDView.queryset = Application.objects.all().order_by("_path")`. -/
def rowPathLe (a b : AppRow) : Prop := pathLeB a.path b.path = true

instance : DecidableRel rowNameLe :=
  fun a b => inferInstanceAs (Decidable (pathLeB a.name.data b.name.data = true))

instance : DecidableRel rowPathLe :=
  fun a b => inferInstanceAs (Decidable (pathLeB a.path b.path = true))

/-- The sequence returned by the plain `ApplicationListView`: the table
sorted by `name`. -/
def applicationListView (db : List AppRow) : List AppRow :=
  List.insertionSort rowNameLe db

/-- The sequence returned by the neapolitan CRUD list view and by any query
relying on the model's default ordering: the table sorted by `_path`. -/
def applicationCRUDList (db : List AppRow) : List AppRow :=
  List.insertionSort rowPathLe db

/-- Leading-segment test on character lists. -/
def leadsB : List Char → List Char → Bool
  | [], _ => true
  | _ :: _, [] => false
  | a :: as, b :: bs => a == b && leadsB as bs

/-- The materialized-path descendant relation of the hierarchy-index
contract: `d` is a descendant of `a` exactly when `d`'s path extends `a`'s
path by a dot-separated suffix (paths such as `000` and `000.001`). -/
def pathDesc (a d : AppRow) : Prop := leadsB (a.path ++ ['.']) d.path = true

instance : ∀ a d, Decidable (pathDesc a d) :=
  fun a d => inferInstanceAs (Decidable (leadsB (a.path ++ ['.']) d.path = true))

/-- Pre-order listing: every node appears before each of its descendants and
its descendants form a contiguous block immediately after it (everything
strictly between a node and one of its descendants is also a descendant of
that node). -/
def preOrderListing (l : List AppRow) : Prop :=
  ∀ i j : Fin l.length, pathDesc (l.get i) (l.get j) →
    i.val < j.val ∧
    ∀ k : Fin l.length, i.val < k.val → k.val < j.val → pathDesc (l.get i) (l.get k)

instance (l : List AppRow) : Decidable (preOrderListing l) := by
  unfold preOrderListing
  infer_instance

theorem leadsB_iff (p l : List Char) : leadsB p l = true ↔ ∃ t, l = p ++ t := by
  induction p generalizing l with
  | nil => simp [leadsB]
  | cons a as ih =>
    cases l with
    | nil =>
      simp only [leadsB]
      constructor
      · intro h; cases h
      · intro ⟨t, ht⟩; cases ht
    | cons b bs =>
      simp only [leadsB, Bool.and_eq_true, beq_iff_eq]
      constructor
      · intro ⟨hab, h⟩
        rcases (ih bs).mp h with ⟨t, ht⟩
        exact ⟨t, by rw [hab, ht]; rfl⟩
      · intro ⟨t, ht⟩
        rw [List.cons_append] at ht
        injection ht with h1 h2
        exact ⟨h1.symm, (ih bs).mpr ⟨t, h2⟩⟩

theorem pathLeB_refl (l : List Char) : pathLeB l l = true := by
  induction l with
  | nil => rfl
  | cons a as ih => simp [pathLeB, ih]

theorem pathLeB_total (a b : List Char) : pathLeB a b = true ∨ pathLeB b a = true := by
  induction a generalizing b with
  | nil => exact Or.inl rfl
  | cons x xs ih =>
    cases b with
    | nil => exact Or.inr rfl
    | cons y ys =>
      rcases lt_trichotomy x y with h | h | h
      · left; simp [pathLeB, h]
      · subst h
        rcases ih ys with h2 | h2
        · left; simp [pathLeB, lt_irrefl, h2]
        · right; simp [pathLeB, lt_irrefl, h2]
      · right; simp [pathLeB, h]

theorem pathLeB_trans {a b c : List Char} (h1 : pathLeB a b = true)
    (h2 : pathLeB b c = true) : pathLeB a c = true := by
  induction a generalizing b c with
  | nil => rfl
  | cons x xs ih =>
    cases b with
    | nil => simp [pathLeB] at h1
    | cons y ys =>
      cases c with
      | nil => simp [pathLeB] at h2
      | cons z zs =>
        simp only [pathLeB] at h1 h2 ⊢
        rcases lt_trichotomy x y with hxy | hxy | hxy
        · rcases lt_trichotomy y z with hyz | hyz | hyz
          · simp [lt_trans hxy hyz]
          · subst hyz; simp [hxy]
          · rw [if_neg (lt_asymm hyz), if_pos hyz] at h2; cases h2
        · subst hxy
          rcases lt_trichotomy x z with hyz | hyz | hyz
          · simp [hyz]
          · subst hyz
            rw [if_neg (lt_irrefl x), if_neg (lt_irrefl x)] at h1 h2 ⊢
            exact ih h1 h2
          · rw [if_neg (lt_asymm hyz), if_pos hyz] at h2; cases h2
        · rw [if_neg (lt_asymm hxy), if_pos hxy] at h1; cases h1

instance : IsTotal AppRow rowPathLe := ⟨fun a b => pathLeB_total a.path b.path⟩

instance : IsTrans AppRow rowPathLe := ⟨fun _ _ _ => pathLeB_trans⟩

/-- A strict dot-extension of a path sorts strictly after the path. -/
theorem pathLeB_extension_false (p : List Char) (c : Char) (s : List Char) :
    pathLeB (p ++ c :: s) p = false := by
  induction p with
  | nil => rfl
  | cons a as ih => simp [pathLeB, lt_irrefl, ih]

/-- Anything sorting between a path `A` and a dot-extension of `A` is itself
a dot-extension of `A`, provided its characters are not below `'.'` in the
character order (true of the digit/letter path alphabet). -/
theorem pathLeB_between : ∀ A C s, pathLeB A C = true → A ≠ C →
    pathLeB C (A ++ '.' :: s) = true → (∀ ch ∈ C, ¬ ch < '.') →
    ∃ t, C = A ++ '.' :: t := by
  intro A
  induction A with
  | nil =>
    intro C s _ hne h2 hchars
    cases C with
    | nil => exact absurd rfl hne
    | cons c cs =>
      simp only [List.nil_append] at h2 ⊢
      simp only [pathLeB] at h2
      have hc : ¬ c < '.' := hchars c (List.mem_cons_self c cs)
      rw [if_neg hc] at h2
      by_cases hdc : '.' < c
      · rw [if_pos hdc] at h2; cases h2
      · have : c = '.' := le_antisymm (not_lt.mp hdc) (not_lt.mp hc)
        exact ⟨cs, by rw [this]⟩
  | cons a as ih =>
    intro C s h1 hne h2 hchars
    cases C with
    | nil => simp [pathLeB] at h1
    | cons c cs =>
      simp only [List.cons_append, pathLeB] at h1 h2
      rcases lt_trichotomy a c with hac | hac | hac
      · rw [if_neg (lt_asymm hac), if_pos hac] at h2; cases h2
      · subst hac
        rw [if_neg (lt_irrefl a), if_neg (lt_irrefl a)] at h1 h2
        have hne2 : as ≠ cs := by
          intro h; exact hne (by rw [h])
        have hchars2 : ∀ ch ∈ cs, ¬ ch < '.' :=
          fun ch hch => hchars ch (List.mem_cons_of_mem a hch)
        rcases ih cs s h1 hne2 h2 hchars2 with ⟨t, ht⟩
        exact ⟨t, by rw [ht]; rfl⟩
      · rw [if_neg (lt_asymm hac), if_pos hac] at h1; cases h1

/-- Distinct positions in a list with pairwise-distinct paths hold distinct
paths. -/
theorem map_nodup_get_ne {l : List AppRow}
    (h : (l.map fun r => r.path).Nodup) {i k : Fin l.length} (hne : i ≠ k) :
    (l.get i).path ≠ (l.get k).path := by
  intro heq
  have hi : i.val < (l.map fun r => r.path).length := by
    simp only [List.length_map]
    exact i.isLt
  have hk : k.val < (l.map fun r => r.path).length := by
    simp only [List.length_map]
    exact k.isLt
  have h1 : (l.map fun r => r.path).get ⟨i.val, hi⟩ = (l.get i).path := by
    simp [List.get_eq_getElem, List.getElem_map]
  have h2 : (l.map fun r => r.path).get ⟨k.val, hk⟩ = (l.get k).path := by
    simp [List.get_eq_getElem, List.getElem_map]
  have hgeteq : (l.map fun r => r.path).get ⟨i.val, hi⟩ =
      (l.map fun r => r.path).get ⟨k.val, hk⟩ := by
    rw [h1, h2, heq]
  have hfin := (h.get_inj_iff).mp hgeteq
  have hv : i.val = k.val := Fin.mk.inj hfin
  exact hne (Fin.ext hv)

/-- Claim C2 (amended): ordering by the materialized path — the model's
default ordering `Application.Meta.ordering = ["_path"]`, also used by the
neapolitan CRUD list queryset — yields a pre-order listing (every node
precedes its descendants and its descendants form a contiguous block after
it), for every table whose paths are pairwise distinct and drawn from the
dot-separated path alphabet whose characters do not sort below the dot.
The plain `ApplicationListView`, by contrast, overrides the default with
`ordering = ["name"]`, which is not pre-order (see the counterexample). -/
theorem crud_list_preorder (db : List AppRow)
    (hchars : ∀ r ∈ db, ∀ ch ∈ r.path, ¬ ch < '.')
    (hnodup : (db.map fun r => r.path).Nodup) :
    preOrderListing (applicationCRUDList db) := by
  intro i j hdesc
  have hsorted : List.Sorted rowPathLe (applicationCRUDList db) :=
    List.sorted_insertionSort rowPathLe db
  have hperm : (applicationCRUDList db).Perm db := List.perm_insertionSort rowPathLe db
  have hnodup2 : ((applicationCRUDList db).map fun r => r.path).Nodup :=
    ((hperm.map fun r => r.path).nodup_iff).mpr hnodup
  rcases (leadsB_iff _ _).mp hdesc with ⟨t, ht⟩
  have ht2 : ((applicationCRUDList db).get j).path =
      ((applicationCRUDList db).get i).path ++ '.' :: t := by
    rw [ht, List.append_assoc]
    rfl
  have hij : i.val < j.val := by
    rcases Nat.lt_trichotomy i.val j.val with h | h | h
    · exact h
    · exfalso
      rw [Fin.ext h] at ht2
      have hlen := congrArg List.length ht2
      simp [List.length_append] at hlen
    · exfalso
      have hle : rowPathLe ((applicationCRUDList db).get j)
          ((applicationCRUDList db).get i) :=
        hsorted.rel_get_of_lt (show j < i from h)
      unfold rowPathLe at hle
      rw [ht2, pathLeB_extension_false] at hle
      cases hle
  refine ⟨hij, ?_⟩
  intro k hik hkj
  have hle1 : rowPathLe ((applicationCRUDList db).get i)
      ((applicationCRUDList db).get k) :=
    hsorted.rel_get_of_lt (show i < k from hik)
  have hle2 : rowPathLe ((applicationCRUDList db).get k)
      ((applicationCRUDList db).get j) :=
    hsorted.rel_get_of_lt (show k < j from hkj)
  have hne : ((applicationCRUDList db).get i).path ≠
      ((applicationCRUDList db).get k).path :=
    map_nodup_get_ne hnodup2 (Fin.ne_of_val_ne (Nat.ne_of_lt hik))
  have hmemk : (applicationCRUDList db).get k ∈ db :=
    hperm.mem_iff.mp (List.get_mem (applicationCRUDList db) k.val k.isLt)
  have hchars2 : ∀ ch ∈ ((applicationCRUDList db).get k).path, ¬ ch < '.' :=
    hchars _ hmemk
  unfold rowPathLe at hle1 hle2
  rw [ht2] at hle2
  rcases pathLeB_between _ _ t hle1 hne hle2 hchars2 with ⟨u, hu⟩
  show leadsB (((applicationCRUDList db).get i).path ++ ['.'])
      ((applicationCRUDList db).get k).path = true
  rw [leadsB_iff]
  refine ⟨u, ?_⟩
  rw [hu, List.append_assoc]
  rfl

/-- Witness for C2 (amended) at a concrete two-row table: a parent with path
`000` and a child with path `000.001`. -/
theorem crud_list_preorder_witness :
    preOrderListing (applicationCRUDList
      [{ id := 0, name := "B", path := ['0', '0', '0'] },
       { id := 1, name := "A", path := ['0', '0', '0', '.', '0', '0', '1'] }]) :=
  crud_list_preorder
    [{ id := 0, name := "B", path := ['0', '0', '0'] },
     { id := 1, name := "A", path := ['0', '0', '0', '.', '0', '0', '1'] }]
    (by decide) (by decide)

/-- Claim C2 (counterexample): for a parent named `B` with path `000` and
its child named `A` with path `000.001`, the plain `ApplicationListView`
(whose `ordering = ["name"]` overrides the model default) lists the child
before the parent, so the list operation's default order is not pre-order
by path. -/
theorem name_order_not_preorder_counterexample :
    ¬ preOrderListing (applicationListView
      [{ id := 0, name := "B", path := ['0', '0', '0'] },
       { id := 1, name := "A", path := ['0', '0', '0', '.', '0', '0', '1'] }]) := by
  decide

/-! ## Hierarchy index (contract of django-fast-treenode, modelled from the
specification: the maintenance code is delegated to the external library and
is not part of this repository's sources) -/

/-- A tree node with the hierarchy fields of the specification: parent link
and the derived `depth`, materialized `path` (as a list of sibling
positions), and nested-set `left`/`right` bounds. -/
structure TreeNode where
  id : Nat
  parent : Option Nat
  depth : Nat
  path : List Nat
  left : Nat
  right : Nat
deriving DecidableEq

/-- Looks a node up by id. -/
def nodeById (ns : List TreeNode) (i : Nat) : Option TreeNode :=
  ns.find? fun n => n.id == i

/-- Parent id of a node, if any. -/
def parentIdOf (ns : List TreeNode) (i : Nat) : Option Nat :=
  match nodeById ns i with
  | none => none
  | some n => n.parent

/-- Modelled from the spec: walking a parent chain with fuel bounded by the
number of nodes. -/
def ancestorsAux (ns : List TreeNode) : Nat → Option Nat → List Nat
  | _, none => []
  | 0, some _ => []
  | fuel + 1, some i => i :: ancestorsAux ns fuel (parentIdOf ns i)

/-- Modelled from the spec: the ancestor chain of node `i` (nearest parent
first), produced by walking `parent` links. -/
def ancestors (ns : List TreeNode) (i : Nat) : List Nat :=
  ancestorsAux ns ns.length (parentIdOf ns i)

/-- Modelled from the spec: `y` is a descendant of `x` when `x` occurs on
`y`'s ancestor chain. -/
def isDescendant (ns : List TreeNode) (x y : Nat) : Bool :=
  (ancestors ns y).contains x

/-- Ids of the children of parent `p` (`none` selects the roots), in table
order. -/
def childIds (ns : List TreeNode) (p : Option Nat) : List Nat :=
  (ns.filter fun n => n.parent == p).map fun n => n.id

/-- Modelled from the spec: full recomputation of the derived hierarchy
fields (`depth`, `path`, `left`, `right`) by a fueled pre-order traversal,
the "full-tree recomputation on every structural change" strategy the
specification admits; returns the rebuilt rows in pre-order together with
the next free interval bound. -/
def rebuildAux (ns : List TreeNode) : Nat → Option Nat → List Nat → Nat → Nat →
    List TreeNode × Nat
  | 0, _, _, _, ctr => ([], ctr)
  | fuel + 1, p, pref, d, ctr =>
    (childIds ns p).foldl
      (fun acc c =>
        let sub := rebuildAux ns fuel (some c) (pref ++ [acc.1.length]) (d + 1) (acc.2 + 1)
        (acc.1 ++
          [{ id := c, parent := p, depth := d, path := pref ++ [acc.1.length],
             left := acc.2, right := sub.2 }] ++ sub.1,
         sub.2 + 1))
      ([], ctr)

/-- Modelled from the spec: rebuild every derived hierarchy field from the
parent links. -/
def rebuild (ns : List TreeNode) : List TreeNode :=
  (rebuildAux ns ns.length none [] 0 1).1

/-- Modelled from the spec: assigning a new parent `y` to node `x`. The
cycle check walks the candidate parent's ancestor chain looking for `x`
itself (also rejecting `x` as its own parent) and, when it fires, returns
`false` together with the untouched node table; otherwise the parent link
is updated and every derived field recomputed. -/
def setParent (ns : List TreeNode) (x y : Nat) : Bool × List TreeNode :=
  if x = y ∨ isDescendant ns x y = true then (false, ns)
  else
    (true, rebuild (ns.map fun n => if n.id = x then { n with parent := some y } else n))

/-- Claim C3: setting a node's parent to one of its own descendants (or to
itself) is rejected, the node table is returned unchanged, and in
particular the node's `depth`, `path`, `left`, `right` are those it had
before the attempt. -/
theorem cycle_assignment_rejected (ns : List TreeNode) (x y : Nat)
    (h : y = x ∨ isDescendant ns x y = true) :
    setParent ns x y = (false, ns) ∧
    nodeById (setParent ns x y).2 x = nodeById ns x := by
  have hcond : x = y ∨ isDescendant ns x y = true := by
    rcases h with h | h
    · exact Or.inl h.symm
    · exact Or.inr h
  have hset : setParent ns x y = (false, ns) := by
    unfold setParent
    rw [if_pos hcond]
  exact ⟨hset, by rw [hset]⟩

/-- Witness for C3: a two-node chain `0 → 1`; re-parenting the root `0`
under its child `1` is rejected and the table is unchanged. -/
theorem cycle_assignment_rejected_witness :
    setParent
      [{ id := 0, parent := none, depth := 0, path := [0], left := 1, right := 4 },
       { id := 1, parent := some 0, depth := 1, path := [0, 0], left := 2, right := 3 }]
      0 1 =
      (false,
       [{ id := 0, parent := none, depth := 0, path := [0], left := 1, right := 4 },
        { id := 1, parent := some 0, depth := 1, path := [0, 0], left := 2, right := 3 }]) ∧
    nodeById
      (setParent
        [{ id := 0, parent := none, depth := 0, path := [0], left := 1, right := 4 },
         { id := 1, parent := some 0, depth := 1, path := [0, 0], left := 2, right := 3 }]
        0 1).2 0 =
      nodeById
        [{ id := 0, parent := none, depth := 0, path := [0], left := 1, right := 4 },
         { id := 1, parent := some 0, depth := 1, path := [0, 0], left := 2, right := 3 }] 0 :=
  cycle_assignment_rejected
    [{ id := 0, parent := none, depth := 0, path := [0], left := 1, right := 4 },
     { id := 1, parent := some 0, depth := 1, path := [0, 0], left := 2, right := 3 }]
    0 1 (Or.inr (by decide))

/-! ## Attribute admin (`src/core/admin/attribute_admin.py`) -/

/-- `AttributeAdmin.save_model`: for `data_type == 'boolean'` the cleaned
checkbox value is converted to the literal string `"true"` or `"false"`
before saving; for every other data type the value on the object is kept
as submitted. -/
def save_model_value (data_type : String) (formValue : Bool) (objValue : String) : String :=
  if data_type = "boolean" then (if formValue then "true" else "false") else objValue

/-- Python's `str.lower()` on ASCII text, character by character. -/
def lowerStr (s : String) : String := String.mk (s.data.map Char.toLower)

/-- `AttributeAdmin._get_boolean_value`: the stored text is truthy exactly
when it is non-empty and its lower-cased form is one of `true`, `1`, `yes`,
`on`. -/
def get_boolean_value (v : String) : Bool :=
  if v ≠ "" then
    (lowerStr v == "true" || lowerStr v == "1" || lowerStr v == "yes" || lowerStr v == "on")
  else false

/-- Claim C5: for every Attribute with data type `boolean` saved through the
admin, the stored value is exactly one of the literal strings `"true"` and
`"false"`, and it is `"true"` precisely when the submitted form value is
truthy. -/
theorem boolean_saved_as_literal (data_type : String) (formValue : Bool)
    (objValue : String) (h : data_type = "boolean") :
    (save_model_value data_type formValue objValue = "true" ∨
     save_model_value data_type formValue objValue = "false") ∧
    (save_model_value data_type formValue objValue = "true" ↔ formValue = true) := by
  subst h
  unfold save_model_value
  rw [if_pos rfl]
  cases formValue <;> simp

/-- Witness for C5 at a concrete saved Attribute. -/
theorem boolean_saved_as_literal_witness :
    (save_model_value "boolean" true "whatever" = "true" ∨
     save_model_value "boolean" true "whatever" = "false") ∧
    (save_model_value "boolean" true "whatever" = "true" ↔ true = true) :=
  boolean_saved_as_literal "boolean" true "whatever" rfl

/-- Claim C9: the boolean round-trip through the admin layer: saving a
boolean Attribute and re-reading it through the display conversion returns
the submitted boolean; and the display conversion returns `true` exactly
when the stored value, lower-cased, is one of `true`, `1`, `yes`, `on`
(in particular `false` for the empty string). -/
theorem boolean_round_trip :
    (∀ b objValue, get_boolean_value (save_model_value "boolean" b objValue) = b) ∧
    (∀ v, get_boolean_value v = true ↔
      lowerStr v ∈ (["true", "1", "yes", "on"] : List String)) := by
  constructor
  · intro b objValue
    cases b <;> simp only [save_model_value, if_pos rfl, if_true, if_false] <;> decide
  · intro v
    unfold get_boolean_value
    by_cases hv : v = ""
    · subst hv
      simp only [ne_eq, not_true_eq_false, if_false]
      constructor
      · intro h; cases h
      · intro h
        have hempty : lowerStr "" = "" := by decide
        rw [hempty] at h
        simp at h
    · rw [if_pos hv]
      simp only [Bool.or_eq_true, beq_iff_eq, List.mem_cons, List.mem_singleton,
        List.not_mem_nil, or_false]
      constructor
      · intro h
        rcases h with ((h | h) | h) | h <;> simp [h]
      · intro h
        rcases h with h | h | h | h <;> simp [h]

/-! ## CRUD edit view (`src/core/views/application_crud.py`) -/

/-- Outcome of a CRUD operation on the edit page: the not-found branch, a
re-rendered form with per-field validation errors, or a successful save
redirecting to the list page. -/
inductive EditOutcome
  | notFound
  | validationErrors (errors : List String)
  | saved (redirectTo : String)
deriving DecidableEq

/-- `ApplicationCRUD.edit_view`: look the instance up by primary key and
raise 404 (`Http404("Application not found")`) when it does not exist; the
saving handler `on_save` only proceeds when the form is valid, re-rendering
the form with its errors otherwise. -/
def edit_view (db : List DbRecord) (pk : Nat) (formValid : Bool)
    (formErrors : List String) : EditOutcome :=
  match db.find? fun r => r.id == pk with
  | none => EditOutcome.notFound
  | some _ =>
    if formValid then EditOutcome.saved "/application/" else
      EditOutcome.validationErrors formErrors

/-- Claim C6: operating on a primary key that matches no record yields the
distinct not-found outcome, which is never equal to a validation-failure
outcome. -/
theorem nonexistent_id_not_found (db : List DbRecord) (pk : Nat)
    (formValid : Bool) (formErrors : List String)
    (h : ∀ r ∈ db, r.id ≠ pk) :
    edit_view db pk formValid formErrors = EditOutcome.notFound ∧
    ∀ errs, (EditOutcome.notFound : EditOutcome) ≠ EditOutcome.validationErrors errs := by
  constructor
  · unfold edit_view
    have hfind : (db.find? fun r => r.id == pk) = none := by
      apply List.find?_eq_none.mpr
      intro r hr
      simp only [beq_iff_eq]
      exact h r hr
    rw [hfind]
  · intro errs hcon
    cases hcon

/-- Witness for C6: looking up pk `5` in a one-row table holding pk `0`. -/
theorem nonexistent_id_not_found_witness :
    edit_view [{ id := 0, name := "App A", slug := "app-a" }] 5 true [] =
      EditOutcome.notFound ∧
    ∀ errs, (EditOutcome.notFound : EditOutcome) ≠ EditOutcome.validationErrors errs :=
  nonexistent_id_not_found [{ id := 0, name := "App A", slug := "app-a" }] 5 true []
    (by decide)

/-! ## URL wiring (`src/core/urls.py`) -/

/-- A routed response: a redirect with its HTTP status and target, a
rendered page identified by its view name, or no match. -/
inductive HttpResponse
  | redirect (status : Nat) (location : String)
  | page (viewName : String)
  | notFound
deriving DecidableEq

/-- The `urlpatterns` of `core/urls.py`: the empty path is served by
`RedirectView` with `pattern_name='core:application_list'` and
`permanent=False` (HTTP 302), which reverses to `/application/`; the
`application/` path is served by `ApplicationListView` under the name
`application_list`. -/
def route (path : String) : HttpResponse :=
  if path = "" then HttpResponse.redirect 302 "/application/"
  else if path = "application/" then HttpResponse.page "application_list"
  else HttpResponse.notFound

/-- Claim C8: a request to the root URL is answered with a (non-permanent)
redirect whose target is exactly the path at which the Application list
page is served. -/
theorem home_redirects_to_application_list :
    route "" = HttpResponse.redirect 302 "/application/" ∧
    route "application/" = HttpResponse.page "application_list" := by
  exact ⟨by decide, by decide⟩
